import Mathlib

/-!
# Verification of `pubmed_compare.py`

A shallow embedding of the phrase-combination generator, the query client's
error handling, and the two CSV reporters of `src/pubmed_compare.py`,
together with theorems settling the specification's claims about them.

Machine details that the claims do not touch are abstracted as follows:
the network call is modelled by an explicit outcome value (success with an
id list, or one of the failure modes caught by the `try/except`); the
Jaccard quotient, computed in Python floating point, is modelled exactly
over `ℚ`; CSV rows are lists of cell strings (file writing is out of scope).
-/

namespace PubmedCompare

/-- `itertools.combinations(l, r)`: all length-`r` subsequences of `l`,
in lexicographic order of index positions (for `l = [a,b,c]`, `r = 2`:
`[a,b], [a,c], [b,c]`). -/
def combinations {α : Type} : Nat → List α → List (List α)
  | 0, _ => [[]]
  | _ + 1, [] => []
  | r + 1, x :: xs => ((combinations r xs).map (x :: ·)) ++ combinations (r + 1) xs

/-- `f'"{p}"'`: wrap one phrase in double quotes. -/
def quote (p : String) : String := "\"" ++ p ++ "\""

/-- Python `sep.join(l)`. -/
def joinSep (sep : String) : List String → String
  | [] => ""
  | [s] => s
  | s :: t :: ss => s ++ sep ++ joinSep sep (t :: ss)

/-- Python `str.upper()`: uppercase the string character by character
(`String.toUpper`, written as a structurally recursive map so that it
evaluates inside the kernel). -/
def upper (s : String) : String := String.mk (s.data.map Char.toUpper)

/-- Python `range(1, k + 1)` over an arbitrary integer `k`:
the sizes `1, 2, …, k`, empty when `k ≤ 0`. -/
def rangeSizes (k : Int) : List Nat := (List.range k.toNat).map (· + 1)

/-- `generate_phrase_combinations` (src/pubmed_compare.py:78-91).
The `assert` on the uppercased operator is modelled by `Except.error`;
on success the list of `(combined_search_string, component_phrases)` pairs
is returned in generation order. -/
def generate_phrase_combinations (phrases : List String) (max_combination_size : Int := 2)
    (operator : String := "AND") : Except String (List (String × List String)) :=
  let op := upper operator
  if op = "AND" ∨ op = "OR" then
    .ok <| (rangeSizes max_combination_size).flatMap fun r =>
      (combinations r phrases).map fun combo =>
        (joinSep (" " ++ op ++ " ") (combo.map quote), combo)
  else
    .error "Operator must be 'AND' or 'OR'."

/-- The possible outcomes of the one `requests.get` call in `fetch_pmids`
(src/pubmed_compare.py:110-117): a parsed response with its id list, or one
of the failure modes caught by the `except` clause. -/
inductive EsearchOutcome : Type
  | ok (idlist : List String)
  | networkError (msg : String)
  | httpStatusError (msg : String)
  | malformedBody (msg : String)
  | missingField (msg : String)

/-- Whether the outcome is a successfully parsed response. -/
def EsearchOutcome.isOk : EsearchOutcome → Bool
  | .ok _ => true
  | _ => false

/-- `fetch_pmids` (src/pubmed_compare.py:94-117) as a function of the
request's outcome: the returned PMID set together with the list of error
lines printed. On success the id list becomes a set; every caught failure
prints one error line and yields the empty set. -/
def fetch_pmids (search_term : String) (outcome : EsearchOutcome) :
    Finset String × List String :=
  match outcome with
  | .ok ids => (ids.toFinset, [])
  | .networkError m | .httpStatusError m | .malformedBody m | .missingField m =>
      (∅, ["Error fetching for term: " ++ search_term ++ "\n" ++ toString m])

/-- The `results` dict built by the main loop: insertion-ordered entries
`(query string, (component phrases, pmid set))`. -/
abbrev ResultStore := List (String × List String × Finset String)

/-- `results_dict[t]["pmids"]`: the pmid set stored under key `t`
(the empty set when absent, which the main loop never produces). -/
def lookupPmids (store : ResultStore) (t : String) : Finset String :=
  ((store.find? fun e => e.1 == t).map fun e => e.2.2).getD ∅

/-- `save_term_counts` (src/pubmed_compare.py:120-128) as the list of CSV
rows it writes: the fixed header, then one row per store entry in order. -/
def save_term_counts (store : ResultStore) : List (List String) :=
  ["Search Term", "Component Phrases", "Result Count"] ::
    store.map fun e => [e.1, joinSep "; " e.2.1, toString e.2.2.card]

/-- `itertools.combinations(l, 2)` as a list of pairs: all `(l[i], l[j])`
with `i < j`, in the generator's order. -/
def pairsOf {α : Type} : List α → List (α × α)
  | [] => []
  | x :: xs => (xs.map fun y => (x, y)) ++ pairsOf xs

/-- `100 * len(shared) / len(union) if union else 0`
(src/pubmed_compare.py:143), computed exactly over `ℚ`. -/
def jaccardQ (s1 s2 : Finset String) : ℚ :=
  if (s1 ∪ s2).Nonempty then
    (100 * (s1 ∩ s2).card : ℚ) / ((s1 ∪ s2).card : ℚ)
  else 0

/-- `f"{x:.1f}"`: fixed-point rendering with one decimal place
(round half to even on the tenths), for the non-negative values
produced here. -/
def fmtFixed1 (q : ℚ) : String :=
  let t : ℚ := 10 * q
  let f : Int := ⌊t⌋
  let n : Int :=
    if t - f < 1 / 2 then f
    else if 1 / 2 < t - f then f + 1
    else if f % 2 = 0 then f else f + 1
  toString (n / 10) ++ "." ++ toString (n.natAbs % 10)

/-- One data row written by `save_overlap_matrix` for the key pair `p`. -/
def overlapRow (store : ResultStore) (p : String × String) : List String :=
  let s1 := lookupPmids store p.1
  let s2 := lookupPmids store p.2
  [p.1, p.2, toString (s1 ∩ s2).card, toString (s1 ∪ s2).card,
    fmtFixed1 (jaccardQ s1 s2)]

/-- `save_overlap_matrix` (src/pubmed_compare.py:131-144) as the list of
CSV rows it writes: the fixed header, then one row per unordered pair of
distinct keys from `combinations(terms, 2)`. -/
def save_overlap_matrix (store : ResultStore) : List (List String) :=
  ["Term 1", "Term 2", "Shared Count", "Union Count", "Jaccard %"] ::
    (pairsOf (store.map fun e => e.1)).map (overlapRow store)

/-- The index tuples underlying `combinations`: `combinations` applied to
the positions `0, …, n-1` themselves. -/
def indexCombos (n r : Nat) : List (List Nat) := combinations r (List.range n)

/-- Boolean test that `s` is an initial segment of `l` (used by the
round-trip decoder's splitter). -/
def isPrefixL : List Char → List Char → Bool
  | [], _ => true
  | _ :: _, [] => false
  | a :: as, b :: bs => a == b && isPrefixL as bs

/-- Fuelled worker for leftmost splitting of a character list on a
separator, as Python `str.split(sep)` does. -/
def splitOnAux (sep : List Char) : Nat → List Char → List (List Char)
  | _, [] => [[]]
  | 0, l => [l]
  | fuel + 1, c :: cs =>
    if isPrefixL sep (c :: cs) then
      [] :: splitOnAux sep fuel ((c :: cs).drop sep.length)
    else
      (splitOnAux sep fuel cs).modifyHead (c :: ·)

/-- Split a character list on the leftmost, non-overlapping occurrences of
a non-empty separator. -/
def splitOnL (sep l : List Char) : List (List Char) := splitOnAux sep l.length l

/-- Strip one surrounding double quote from each end, when present. -/
def stripQuotes (s : List Char) : List Char :=
  let s1 := if s.head? = some '"' then s.drop 1 else s
  if s1.getLast? = some '"' then s1.dropLast else s1

/-- The characters of a quoted phrase: `'"' :: p ++ ['"']`. -/
def quotedL (p : List Char) : List Char := '"' :: p ++ ['"']

/-- `joinSep` at the character level. -/
def joinL (sep : List Char) : List (List Char) → List Char
  | [] => []
  | [s] => s
  | s :: t :: ss => s ++ sep ++ joinL sep (t :: ss)

/-- The round-trip decoding the spec describes: split the query string on
the space-surrounded operator and strip the surrounding double quotes of
each piece. -/
def decode (operator : String) (q : String) : List String :=
  (splitOnL (" " ++ operator ++ " ").data q.data).map fun seg =>
    String.mk (stripQuotes seg)

/-! ## Properties of `combinations` -/

theorem mem_combinations_iff {α : Type} {r : Nat} {l c : List α} :
    c ∈ combinations r l ↔ c.Sublist l ∧ c.length = r := by
  induction l generalizing r c with
  | nil =>
    cases r with
    | zero =>
      simp only [combinations, List.mem_singleton]
      constructor
      · rintro rfl; simp
      · rintro ⟨h, hl⟩; exact List.length_eq_zero.mp hl
    | succ r =>
      simp only [combinations, List.not_mem_nil, false_iff, not_and]
      intro h hl
      have := h.length_le
      simp [hl] at this
  | cons x xs ih =>
    cases r with
    | zero =>
      simp only [combinations, List.mem_singleton]
      constructor
      · rintro rfl; simp
      · rintro ⟨h, hl⟩; exact List.length_eq_zero.mp hl
    | succ r =>
      simp only [combinations, List.mem_append, List.mem_map, ih]
      constructor
      · rintro (⟨c', ⟨hs, hlen⟩, rfl⟩ | ⟨hs, hlen⟩)
        · exact ⟨hs.cons_cons x, by simp [hlen]⟩
        · exact ⟨hs.cons x, hlen⟩
      · rintro ⟨hs, hlen⟩
        rcases List.sublist_cons_iff.mp hs with h | ⟨c', rfl, hc'⟩
        · exact Or.inr ⟨h, hlen⟩
        · exact Or.inl ⟨c', ⟨hc', by simpa using hlen⟩, rfl⟩

theorem length_combinations {α : Type} : ∀ (r : Nat) (l : List α),
    (combinations r l).length = l.length.choose r
  | 0, l => by simp [combinations]
  | _ + 1, [] => by simp [combinations]
  | r + 1, x :: xs => by
    simp [combinations, length_combinations r xs, length_combinations (r + 1) xs,
      Nat.choose_succ_succ]

theorem nodup_combinations {α : Type} {l : List α} (hl : l.Nodup) :
    ∀ r, (combinations r l).Nodup := by
  induction l with
  | nil => intro r; cases r <;> simp [combinations]
  | cons x xs ih =>
    intro r
    have hx : x ∉ xs := (List.nodup_cons.mp hl).1
    have hxs : xs.Nodup := (List.nodup_cons.mp hl).2
    cases r with
    | zero => simp [combinations]
    | succ r =>
      refine List.Nodup.append ((ih hxs r).map (List.cons_injective)) (ih hxs (r + 1)) ?_
      intro a ha hb
      rcases List.mem_map.mp ha with ⟨a', _, rfl⟩
      have hsub : (x :: a').Sublist xs := (mem_combinations_iff.mp hb).1
      exact hx (hsub.subset (List.mem_cons_self x a'))

theorem combinations_map {α β : Type} (f : α → β) : ∀ (r : Nat) (l : List α),
    combinations r (l.map f) = (combinations r l).map (List.map f)
  | 0, l => by simp [combinations]
  | _ + 1, [] => by simp [combinations]
  | r + 1, x :: xs => by
    simp [combinations, combinations_map f r xs, combinations_map f (r + 1) xs,
      List.map_map, Function.comp_def]

theorem map_getD_range {α : Type} (l : List α) (d : α) :
    (List.range l.length).map (fun i => l.getD i d) = l := by
  induction l with
  | nil => simp
  | cons x xs ih =>
    rw [List.length_cons, List.range_succ_eq_map, List.map_cons, List.map_map]
    simpa [Function.comp_def] using ih

theorem chain'_lex_combinations {l : List Nat} (hl : l.Pairwise (· < ·)) :
    ∀ r, (combinations r l).Chain' (List.Lex (· < ·)) := by
  induction l with
  | nil => intro r; cases r <;> simp [combinations]
  | cons x xs ih =>
    intro r
    have hx : ∀ y ∈ xs, x < y := fun y hy => List.rel_of_pairwise_cons hl hy
    have hxs : xs.Pairwise (· < ·) := (List.pairwise_cons.mp hl).2
    cases r with
    | zero => simp [combinations]
    | succ r =>
      refine List.Chain'.append ?_ (ih hxs (r + 1)) ?_
      · rw [List.chain'_map]
        exact (ih hxs r).imp fun a b h => List.Lex.cons h
      · intro a ha b hb
        rw [List.getLast?_map] at ha
        rcases Option.map_eq_some'.mp ha with ⟨a', _, rfl⟩
        have hbmem : b ∈ combinations (r + 1) xs := List.mem_of_mem_head? hb
        obtain ⟨hbs, hbl⟩ := mem_combinations_iff.mp hbmem
        cases b with
        | nil => simp at hbl
        | cons y b' =>
          exact List.Lex.rel (hx y (hbs.subset (List.mem_cons_self y b')))

theorem sublist_range_iff {t : List Nat} {n : Nat} :
    t.Sublist (List.range n) ↔ t.Pairwise (· < ·) ∧ ∀ i ∈ t, i < n := by
  constructor
  · intro h
    exact ⟨(List.pairwise_lt_range n).sublist h,
      fun i hi => List.mem_range.mp (h.subset hi)⟩
  · rintro ⟨hp, hb⟩
    exact List.sublist_of_subperm_of_sorted
      (List.subperm_of_subset hp.nodup fun i hi => List.mem_range.mpr (hb i hi))
      hp (List.sorted_lt_range n)

/-- `indexCombos n r` is sorted: consecutive index tuples are in strictly
increasing lexicographic order. -/
theorem chain'_lex_indexCombos (n r : Nat) :
    (indexCombos n r).Chain' (List.Lex (· < ·)) :=
  chain'_lex_combinations (List.pairwise_lt_range n) r

/-- The index tuples of `indexCombos n r` are exactly the strictly
increasing tuples of `r` positions below `n`. -/
theorem mem_indexCombos_iff {n r : Nat} {t : List Nat} :
    t ∈ indexCombos n r ↔ t.length = r ∧ t.Chain' (· < ·) ∧ ∀ i ∈ t, i < n := by
  rw [indexCombos, mem_combinations_iff, sublist_range_iff, List.chain'_iff_pairwise]
  tauto

/-- `combinations r l` is `indexCombos` applied to positions of `l`:
each tuple of index positions is mapped to the corresponding elements. -/
theorem combinations_eq_indexCombos {α : Type} (r : Nat) (l : List α) (d : α) :
    combinations r l = (indexCombos l.length r).map fun t => t.map fun i => l.getD i d := by
  conv_lhs => rw [← map_getD_range l d]
  rw [indexCombos, combinations_map]

/-! ## The generator: success characterization and size range -/

theorem generate_ok_iff {phrases : List String} {k : Int} {op : String}
    {out : List (String × List String)} :
    generate_phrase_combinations phrases k op = .ok out ↔
      (upper op = "AND" ∨ upper op = "OR") ∧
      out = (rangeSizes k).flatMap fun r => (combinations r phrases).map fun combo =>
        (joinSep (" " ++ upper op ++ " ") (combo.map quote), combo) := by
  by_cases hop : upper op = "AND" ∨ upper op = "OR"
  · simp only [generate_phrase_combinations, if_pos hop, Except.ok.injEq]
    constructor
    · intro h
      exact ⟨hop, h.symm⟩
    · intro h
      exact h.2.symm
  · simp only [generate_phrase_combinations, if_neg hop]
    constructor
    · intro h
      cases h
    · intro h
      exact absurd h.1 hop

theorem mem_rangeSizes_iff {k : Int} {r : Nat} :
    r ∈ rangeSizes k ↔ 1 ≤ r ∧ (r : Int) ≤ k := by
  simp only [rangeSizes, List.mem_map, List.mem_range]
  constructor
  · rintro ⟨i, hi, rfl⟩
    omega
  · rintro ⟨h1, h2⟩
    exact ⟨r - 1, by omega, by omega⟩

theorem chain'_lt_rangeSizes (k : Int) : (rangeSizes k).Chain' (· < ·) := by
  rw [rangeSizes, List.chain'_map]
  exact ((List.pairwise_lt_range k.toNat).chain').imp fun a b h => by omega

theorem sum_map_range {β : Type} [AddCommMonoid β] (g : Nat → β) :
    ∀ m : Nat, (((List.range m).map g).sum = ∑ i ∈ Finset.range m, g i)
  | 0 => by simp
  | m + 1 => by
    rw [List.range_succ, List.map_append, List.sum_append, Finset.sum_range_succ,
      sum_map_range g m]
    simp

/-! ## Claims C1, C4, C10 -/

/-- **C1**: for every phrase list, `K ≥ 1` and operator, a successful run of
`generate_phrase_combinations` returns, for `r = 1` up to `K` in increasing
order and within each `r` in lexicographic order of index positions over the
input list, one pair per combination whose query string is each component
phrase wrapped in double quotes and joined by the uppercased operator
surrounded by single spaces; in particular for `["a","b"]`, `K = 2`, `AND`
the output is exactly `"a"`, `"b"`, `"a" AND "b"` in that order. -/
theorem c1_generation_order_and_format :
    (∀ (phrases : List String) (K : Int) (op : String)
        (out : List (String × List String)),
        1 ≤ K →
        generate_phrase_combinations phrases K op = .ok out →
        out = (rangeSizes K).flatMap (fun r => (combinations r phrases).map fun c =>
            (joinSep (" " ++ upper op ++ " ") (c.map quote), c))
        ∧ (rangeSizes K).Chain' (· < ·)
        ∧ (∀ r, r ∈ rangeSizes K ↔ 1 ≤ r ∧ (r : Int) ≤ K)
        ∧ (∀ r, combinations r phrases =
            (indexCombos phrases.length r).map fun t => t.map fun i => phrases.getD i "")
        ∧ (∀ r, (indexCombos phrases.length r).Chain' (List.Lex (· < ·)))
        ∧ (∀ r t, t ∈ indexCombos phrases.length r ↔
            t.length = r ∧ t.Chain' (· < ·) ∧ ∀ i ∈ t, i < phrases.length))
    ∧ generate_phrase_combinations ["a", "b"] 2 "AND" =
        .ok [("\"a\"", ["a"]), ("\"b\"", ["b"]), ("\"a\" AND \"b\"", ["a", "b"])] := by
  refine ⟨?_, by rfl⟩
  · intro phrases K op out _ hgen
    obtain ⟨hop, hout⟩ := generate_ok_iff.mp hgen
    exact ⟨hout, chain'_lt_rangeSizes K, fun r => mem_rangeSizes_iff,
      fun r => combinations_eq_indexCombos r phrases "",
      fun r => chain'_lex_indexCombos _ r,
      fun r t => mem_indexCombos_iff⟩

/-- Witness for C1 at `phrases = ["a","b"]`, `K = 2`, `operator = "AND"`. -/
theorem c1_generation_order_and_format_witness :
    ([("\"a\"", ["a"]), ("\"b\"", ["b"]), ("\"a\" AND \"b\"", ["a", "b"])]
        : List (String × List String)) =
      (rangeSizes 2).flatMap (fun r => (combinations r ["a", "b"]).map fun c =>
        (joinSep (" " ++ upper "AND" ++ " ") (c.map quote), c)) :=
  (c1_generation_order_and_format.1 ["a", "b"] 2 "AND"
    [("\"a\"", ["a"]), ("\"b\"", ["b"]), ("\"a\" AND \"b\"", ["a", "b"])]
    (by decide) (by rfl)).1

/-- **C4**: the operator is accepted case-insensitively and normalized to
uppercase before use; any operator whose uppercased form is neither `AND`
nor `OR` makes `generate_phrase_combinations` fail with an error instead of
producing combinations. -/
theorem c4_operator_validation :
    (∀ (phrases : List String) (k : Int) (op : String),
        upper op ≠ "AND" → upper op ≠ "OR" →
          generate_phrase_combinations phrases k op =
            .error "Operator must be 'AND' or 'OR'.")
    ∧ (∀ (phrases : List String) (k : Int) (op₁ op₂ : String),
        upper op₁ = upper op₂ →
          generate_phrase_combinations phrases k op₁ =
            generate_phrase_combinations phrases k op₂)
    ∧ (∀ (phrases : List String) (k : Int) (op : String)
        (out : List (String × List String)),
        generate_phrase_combinations phrases k op = .ok out →
          ∀ p ∈ out, p.1 = joinSep (" " ++ upper op ++ " ") (p.2.map quote)) := by
  refine ⟨?_, ?_, ?_⟩
  · intro phrases k op h1 h2
    have : ¬ (upper op = "AND" ∨ upper op = "OR") := by tauto
    simp [generate_phrase_combinations, this]
  · intro phrases k op₁ op₂ h
    simp only [generate_phrase_combinations, h]
  · intro phrases k op out hgen p hp
    obtain ⟨-, hout⟩ := generate_ok_iff.mp hgen
    subst hout
    obtain ⟨r, -, hp⟩ := List.mem_flatMap.mp hp
    obtain ⟨c, -, rfl⟩ := List.mem_map.mp hp
    rfl

/-- Witness for C4: the lowercase operator `"or"` is accepted like `"OR"`,
and `"nor"` is rejected with the assertion's error message. -/
theorem c4_operator_validation_witness :
    generate_phrase_combinations ["a"] 1 "nor" =
        .error "Operator must be 'AND' or 'OR'."
    ∧ generate_phrase_combinations ["a"] 1 "or" =
        generate_phrase_combinations ["a"] 1 "OR" :=
  ⟨c4_operator_validation.1 ["a"] 1 "nor" (by decide) (by decide),
    c4_operator_validation.2.1 ["a"] 1 "or" "OR" (by decide)⟩

/-- **C10**: for a valid operator and `max_combination_size ≤ 0`,
`generate_phrase_combinations` returns the empty list without error,
the size range `1..max_combination_size` being empty. -/
theorem c10_nonpositive_size_empty :
    ∀ (phrases : List String) (op : String) (k : Int),
      k ≤ 0 → (upper op = "AND" ∨ upper op = "OR") →
      generate_phrase_combinations phrases k op = .ok [] := by
  intro phrases op k hk hop
  rw [generate_ok_iff]
  refine ⟨hop, ?_⟩
  have h0 : k.toNat = 0 := by omega
  simp [rangeSizes, h0]

/-- Witness for C10 at `phrases = ["a"]`, `k = -2`, `operator = "or"`. -/
theorem c10_nonpositive_size_empty_witness :
    generate_phrase_combinations ["a"] (-2) "or" = .ok [] :=
  c10_nonpositive_size_empty ["a"] "or" (-2) (by decide) (Or.inr (by rfl))

/-! ## The reporters and the Jaccard statistic -/

theorem pairsOf_eq_indexPairs {α : Type} (d : α) : ∀ (l : List α),
    pairsOf l = (List.range l.length).flatMap fun i =>
      ((List.range l.length).filter fun j => i < j).map fun j => (l.getD i d, l.getD j d)
  | [] => by simp [pairsOf]
  | x :: xs => by
    rw [pairsOf, List.length_cons, List.range_succ_eq_map, List.flatMap_cons,
      List.flatMap_map, pairsOf_eq_indexPairs d xs]
    congr 1
    · rw [List.filter_cons]
      simp only [decide_eq_true_eq, Nat.lt_irrefl, if_false, Nat.not_lt_zero,
        Nat.succ_eq_add_one, List.filter_map, List.map_map, Nat.lt_irrefl]
      have h1 : ((fun j => decide (0 < j)) ∘ (fun n => n + 1)) = fun _ => true := by
        funext j
        simp
      rw [show ((fun j => decide (0 < j)) ∘ Nat.succ) = fun _ => true from by
        funext j; simp, List.filter_true]
      conv_lhs => rw [← map_getD_range xs d]
      rw [List.map_map]
      apply List.map_congr_left
      intro i hi
      simp [Function.comp_def, List.getD_cons_succ, List.getD_cons_zero]
    · refine congrArg (List.flatMap _) ?_
      funext i
      rw [List.filter_cons]
      simp only [decide_eq_true_eq, Nat.not_lt_zero, if_false, Nat.succ_eq_add_one,
        List.filter_map, List.map_map]
      rw [show ((fun j => decide (i + 1 < j)) ∘ Nat.succ) = fun j => decide (i < j) from by
        funext j; simp [Nat.succ_lt_succ_iff]]
      apply List.map_congr_left
      intro j hj
      simp [Function.comp_def, List.getD_cons_succ]

/-- `pairsOf` is exactly `itertools.combinations(l, 2)` (which yields its
two-element tuples): the overlap reporter's pair enumeration agrees with
the shared `combinations` function at `r = 2`. -/
theorem combinations_one {α : Type} : ∀ (l : List α),
    combinations 1 l = l.map fun y => [y]
  | [] => rfl
  | x :: xs => by
    show (combinations 0 xs).map (x :: ·) ++ combinations 1 xs = _
    rw [combinations_one xs]
    simp [combinations]

theorem pairsOf_eq_combinations_two {α : Type} : ∀ (l : List α),
    (pairsOf l).map (fun p => [p.1, p.2]) = combinations 2 l
  | [] => rfl
  | x :: xs => by
    rw [pairsOf, List.map_append, List.map_map, pairsOf_eq_combinations_two xs]
    show _ = (combinations 1 xs).map (x :: ·) ++ combinations 2 xs
    rw [combinations_one, List.map_map]
    rfl

/-- **C7**: the overlap statistics — shared count, union count and Jaccard
percentage — are symmetric in the two result sets. -/
theorem c7_overlap_symmetric :
    ∀ s1 s2 : Finset String,
      (s1 ∩ s2).card = (s2 ∩ s1).card
      ∧ (s1 ∪ s2).card = (s2 ∪ s1).card
      ∧ jaccardQ s1 s2 = jaccardQ s2 s1 := by
  intro s1 s2
  refine ⟨by rw [Finset.inter_comm], by rw [Finset.union_comm], ?_⟩
  unfold jaccardQ
  rw [Finset.inter_comm, Finset.union_comm]

/-- **C3**: each emitted Jaccard cell renders `jaccardQ` of the two result
sets with one decimal place, where `jaccardQ` is `100·|∩|/|∪|` for a
non-empty union and `0` for an empty union; it always lies in `[0, 100]`,
equals `100` for identical non-empty sets and `0` for disjoint or
both-empty sets. -/
theorem c3_jaccard_value_and_bounds :
    (∀ store : ResultStore, (save_overlap_matrix store).tail =
        (pairsOf (store.map fun e => e.1)).map fun p =>
          [p.1, p.2, toString ((lookupPmids store p.1) ∩ (lookupPmids store p.2)).card,
            toString ((lookupPmids store p.1) ∪ (lookupPmids store p.2)).card,
            fmtFixed1 (jaccardQ (lookupPmids store p.1) (lookupPmids store p.2))])
    ∧ (∀ s1 s2 : Finset String,
        ((s1 ∪ s2).Nonempty →
            jaccardQ s1 s2 = 100 * ((s1 ∩ s2).card : ℚ) / ((s1 ∪ s2).card : ℚ))
        ∧ (s1 ∪ s2 = ∅ → jaccardQ s1 s2 = 0)
        ∧ 0 ≤ jaccardQ s1 s2 ∧ jaccardQ s1 s2 ≤ 100
        ∧ (s1 = s2 → s1.Nonempty → jaccardQ s1 s2 = 100)
        ∧ (Disjoint s1 s2 → jaccardQ s1 s2 = 0)) := by
  constructor
  · intro store
    rfl
  · intro s1 s2
    have hsub : (s1 ∩ s2).card ≤ (s1 ∪ s2).card :=
      Finset.card_le_card Finset.inter_subset_union
    refine ⟨?_, ?_, ?_, ?_, ?_, ?_⟩
    · intro h
      rw [jaccardQ, if_pos h]
    · intro h
      rw [jaccardQ, if_neg (by simp [h])]
    · rw [jaccardQ]
      split
      · positivity
      · exact le_refl 0
    · rw [jaccardQ]
      split
      · rename_i h
        rw [div_le_iff₀ (by exact_mod_cast Finset.card_pos.mpr h)]
        have hc : ((s1 ∩ s2).card : ℚ) ≤ ((s1 ∪ s2).card : ℚ) := by exact_mod_cast hsub
        nlinarith
      · norm_num
    · rintro rfl hne
      rw [jaccardQ, Finset.union_self, Finset.inter_self, if_pos hne]
      have h0 : ((s1.card : ℚ)) ≠ 0 := by
        have := Finset.card_pos.mpr hne
        positivity
      field_simp
    · intro hdisj
      rw [jaccardQ, Finset.disjoint_iff_inter_eq_empty.mp hdisj]
      split
      · simp
      · rfl

/-- Witness for C3 at `s1 = {"1","2","3"}`, `s2 = {"2","3","4"}`
(shared 2, union 4, Jaccard 50). -/
theorem c3_jaccard_value_and_bounds_witness :
    jaccardQ ({"1", "2", "3"} : Finset String) ({"2", "3", "4"} : Finset String) =
      100 * ((({"1", "2", "3"} : Finset String) ∩ {"2", "3", "4"}).card : ℚ) /
        ((({"1", "2", "3"} : Finset String) ∪ {"2", "3", "4"}).card : ℚ) :=
  ((c3_jaccard_value_and_bounds.2 {"1", "2", "3"} {"2", "3", "4"}).1 (by decide))

/-- **C5**: `fetch_pmids` never raises to the caller: a parsed response
yields the set of identifier strings of its id list, and every failure
outcome logs one error line and yields the empty set. -/
theorem c5_fetch_failure_isolation :
    ∀ (term : String) (o : EsearchOutcome),
      (∀ ids, o = .ok ids → fetch_pmids term o = (ids.toFinset, []))
      ∧ (o.isOk = false →
          (fetch_pmids term o).1 = ∅ ∧ (fetch_pmids term o).2.length = 1) := by
  intro term o
  constructor
  · rintro ids rfl
    rfl
  · intro h
    cases o with
    | ok ids => simp [EsearchOutcome.isOk] at h
    | networkError m => exact ⟨rfl, rfl⟩
    | httpStatusError m => exact ⟨rfl, rfl⟩
    | malformedBody m => exact ⟨rfl, rfl⟩
    | missingField m => exact ⟨rfl, rfl⟩

/-- Witness for C5: a network error for one query is logged and treated as
the empty result set. -/
theorem c5_fetch_failure_isolation_witness :
    (fetch_pmids "\"a\"" (.networkError "connection reset")).1 = ∅
    ∧ (fetch_pmids "\"a\"" (.networkError "connection reset")).2.length = 1 :=
  (c5_fetch_failure_isolation "\"a\"" (.networkError "connection reset")).2 rfl

/-- **C6**: the overlap reporter emits the fixed header row and then exactly
one row per unordered pair of distinct query keys — the pairs `(i, j)` with
`i < j` over the key list in store order — and a store with zero or one
query yields zero data rows. -/
theorem c6_overlap_row_enumeration :
    (∀ store : ResultStore, save_overlap_matrix store =
        ["Term 1", "Term 2", "Shared Count", "Union Count", "Jaccard %"] ::
          (pairsOf (store.map fun e => e.1)).map (overlapRow store))
    ∧ (∀ l : List String, pairsOf l =
        (List.range l.length).flatMap fun i =>
          ((List.range l.length).filter fun j => i < j).map fun j =>
            (l.getD i "", l.getD j ""))
    ∧ (∀ store : ResultStore, store.length ≤ 1 → save_overlap_matrix store =
        [["Term 1", "Term 2", "Shared Count", "Union Count", "Jaccard %"]]) := by
  refine ⟨fun store => rfl, fun l => pairsOf_eq_indexPairs "" l, ?_⟩
  intro store hlen
  match store, hlen with
  | [], _ => rfl
  | [e], _ => rfl

/-- Witness for C6: a one-entry store yields the header row only. -/
theorem c6_overlap_row_enumeration_witness :
    save_overlap_matrix [("\"a\"", ["a"], ∅)] =
      [["Term 1", "Term 2", "Shared Count", "Union Count", "Jaccard %"]] :=
  c6_overlap_row_enumeration.2.2 [("\"a\"", ["a"], ∅)] (by decide)

/-- **C9**: the counts reporter produces the fixed header row and then
exactly one row per query in store order, holding the query string, its
component phrases joined by `"; "`, and the cardinality of its result
set. -/
theorem c9_counts_rows :
    ∀ store : ResultStore,
      (save_term_counts store).length = store.length + 1
      ∧ (save_term_counts store).head? =
          some ["Search Term", "Component Phrases", "Result Count"]
      ∧ ∀ k : Nat, (save_term_counts store)[k + 1]? =
          (store[k]?).map fun e => [e.1, joinSep "; " e.2.1, toString e.2.2.card] := by
  intro store
  refine ⟨by simp [save_term_counts], rfl, ?_⟩
  intro k
  rw [save_term_counts, List.getElem?_cons_succ, List.getElem?_map]

/-! ## The query-string round trip: splitting on the operator -/

theorem isPrefixL_iff : ∀ (s l : List Char), isPrefixL s l = true ↔ s <+: l
  | [], l => by simp [isPrefixL]
  | a :: as, [] => by simp [isPrefixL]
  | a :: as, b :: bs => by
    rw [isPrefixL, Bool.and_eq_true, beq_iff_eq, List.cons_prefix_cons,
      isPrefixL_iff as bs]

theorem infix_cons_drop {sep : List Char} {a : Char} {l : List Char}
    (h : sep <:+: l) : sep <:+: a :: l := by
  obtain ⟨s, t, rfl⟩ := h
  exact ⟨a :: s, t, rfl⟩

theorem prefix_stops_before {sep : List Char} {q : Char} (hq : q ∉ sep) :
    ∀ {u v : List Char}, sep <+: u ++ q :: v → sep <+: u := by
  induction sep with
  | nil => exact fun _ => List.nil_prefix
  | cons c s' ih =>
    intro u v h
    match u with
    | [] =>
      rw [List.nil_append, List.cons_prefix_cons] at h
      exact absurd (h.1 ▸ List.mem_cons_self c s') hq
    | a :: u' =>
      rw [List.cons_append, List.cons_prefix_cons] at h
      obtain ⟨rfl, h2⟩ := h
      have := ih (fun hm => hq (List.mem_cons_of_mem _ hm)) h2
      exact List.cons_prefix_cons.mpr ⟨rfl, this⟩

theorem infix_split_at {sep : List Char} {q : Char} (hq : q ∉ sep) :
    ∀ {u v : List Char}, sep <:+: u ++ q :: v → sep <:+: u ∨ sep <:+: v := by
  intro u v h
  obtain ⟨s, t, hst⟩ := h
  induction u generalizing s with
  | nil =>
    cases s with
    | nil =>
      cases sep with
      | nil => exact Or.inl ⟨[], [], rfl⟩
      | cons c s'' =>
        simp only [List.nil_append, List.cons_append] at hst
        injection hst with h1 h2
        exact absurd (h1 ▸ List.mem_cons_self c s'') hq
    | cons c s'' =>
      simp only [List.nil_append, List.cons_append, List.append_assoc] at hst
      injection hst with h1 h2
      exact Or.inr ⟨s'', t, by rw [List.append_assoc]; exact h2⟩
  | cons a u' ih =>
    cases s with
    | nil =>
      have hpre : sep <+: (a :: u') ++ q :: v := ⟨t, by simpa using hst⟩
      refine Or.inl ?_
      obtain ⟨t', ht'⟩ := prefix_stops_before hq hpre
      exact ⟨[], t', by simpa using ht'⟩
    | cons c s'' =>
      simp only [List.cons_append, List.append_assoc] at hst
      injection hst with h1 h2
      rw [← List.append_assoc] at h2
      rcases ih s'' h2 with h | h
      · exact Or.inl (infix_cons_drop h)
      · exact Or.inr h

theorem not_infix_quotedL {sep p : List Char} (hsep : sep ≠ [])
    (hq : '"' ∉ sep) (hp : ¬ sep <:+: p) : ¬ sep <:+: quotedL p := by
  intro h
  have h' : sep <:+: [] ++ '"' :: (p ++ ['"']) := by simpa [quotedL] using h
  rcases infix_split_at hq h' with h0 | h1
  · exact hsep (List.length_eq_zero.mp (Nat.le_zero.mp h0.length_le))
  · have h1' : sep <:+: p ++ '"' :: [] := by simpa using h1
    rcases infix_split_at hq h1' with h2 | h3
    · exact hp h2
    · exact hsep (List.length_eq_zero.mp (Nat.le_zero.mp h3.length_le))

theorem not_infix_quotedL_jo {sep p : List Char} (hsep : sep ≠ [])
    (hq : '"' ∉ sep) (hp : ¬ sep <:+: p) :
    ¬ sep <:+: (quotedL p ++ sep.dropLast) := by
  intro h
  have h' : sep <:+: [] ++ '"' :: (p ++ '"' :: sep.dropLast) := by
    simpa [quotedL] using h
  rcases infix_split_at hq h' with h0 | h1
  · exact hsep (List.length_eq_zero.mp (Nat.le_zero.mp h0.length_le))
  · rcases infix_split_at hq h1 with h2 | h3
    · exact hp h2
    · have hlen := h3.length_le
      rw [List.length_dropLast] at hlen
      have : 0 < sep.length := List.length_pos.mpr hsep
      omega

theorem splitOnAux_no_sep {sep : List Char} (hsep : sep ≠ []) :
    ∀ (fuel : Nat) (l : List Char), ¬ sep <:+: l → splitOnAux sep fuel l = [l]
  | fuel, [], _ => by cases fuel <;> rfl
  | 0, c :: cs, _ => rfl
  | fuel + 1, c :: cs, h => by
    rw [splitOnAux, if_neg, splitOnAux_no_sep hsep fuel cs fun hi =>
      h (infix_cons_drop hi), List.modifyHead]
    intro hpre
    obtain ⟨t, ht⟩ := (isPrefixL_iff sep (c :: cs)).mp hpre
    exact h ⟨[], t, by simpa using ht⟩

theorem splitOnAux_irrel {sep : List Char} (hsep : sep ≠ []) :
    ∀ (f1 f2 : Nat) (l : List Char), l.length ≤ f1 → l.length ≤ f2 →
      splitOnAux sep f1 l = splitOnAux sep f2 l := by
  intro f1
  induction f1 with
  | zero =>
    intro f2 l h1 _
    have : l = [] := List.length_eq_zero.mp (Nat.le_zero.mp h1)
    subst this
    cases f2 <;> rfl
  | succ f1 ih =>
    intro f2 l h1 h2
    cases l with
    | nil => cases f2 <;> rfl
    | cons c cs =>
      have hpos : 0 < sep.length := List.length_pos.mpr hsep
      cases f2 with
      | zero => simp at h2
      | succ f2 =>
        simp only [List.length_cons] at h1 h2
        rw [splitOnAux, splitOnAux]
        by_cases hpre : isPrefixL sep (c :: cs) = true
        · rw [if_pos hpre, if_pos hpre,
            ih f2 ((c :: cs).drop sep.length)
              (by rw [List.length_drop]; simp only [List.length_cons]; omega)
              (by rw [List.length_drop]; simp only [List.length_cons]; omega)]
        · rw [if_neg hpre, if_neg hpre, ih f2 cs (by omega) (by omega)]

theorem isPrefixL_append_self (sep t : List Char) : isPrefixL sep (sep ++ t) = true :=
  (isPrefixL_iff sep (sep ++ t)).mpr (List.prefix_append sep t)

theorem splitOnAux_append_sep {sep : List Char} (hsep : sep ≠ []) :
    ∀ (fuel : Nat) (a b : List Char), (a ++ sep ++ b).length ≤ fuel →
      ¬ sep <:+: (a ++ sep.dropLast) →
      splitOnAux sep fuel (a ++ sep ++ b) = a :: splitOnL sep b
  | fuel, [], b, hlen, _ => by
    simp only [List.nil_append] at hlen ⊢
    cases hs : sep with
    | nil => exact absurd hs hsep
    | cons c s' =>
      subst hs
      cases fuel with
      | zero => simp at hlen
      | succ f =>
        rw [List.cons_append, splitOnAux, ← List.cons_append,
          if_pos (isPrefixL_append_self _ _), List.drop_left]
        rw [splitOnAux_irrel hsep f b.length b ?hf le_rfl]
        case hf =>
          rw [List.length_append, List.length_cons] at hlen
          omega
        rfl
  | 0, x :: a', b, hlen, _ => by
    rw [List.cons_append, List.cons_append, List.length_cons] at hlen
    omega
  | fuel + 1, x :: a', b, hlen, hni => by
    rw [List.cons_append, List.cons_append] at hlen ⊢
    rw [List.cons_append] at hni
    rw [splitOnAux, if_neg ?hneg]
    case hneg =>
      intro hpre
      have hp : sep <+: x :: (a' ++ sep ++ b) := (isPrefixL_iff _ _).mp hpre
      have key : sep.dropLast ++ ([sep.getLast hsep] ++ b) = sep ++ b := by
        rw [← List.append_assoc, List.dropLast_append_getLast]
      have hYW : (x :: (a' ++ sep.dropLast)) ++ ([sep.getLast hsep] ++ b) =
          x :: (a' ++ sep ++ b) := by
        rw [List.cons_append, List.append_assoc, key, ← List.append_assoc]
      have hlenle : sep.length ≤ (x :: (a' ++ sep.dropLast)).length := by
        rw [List.length_cons, List.length_append, List.length_dropLast]
        have : 0 < sep.length := List.length_pos.mpr hsep
        omega
      obtain ⟨t, ht⟩ := List.prefix_of_prefix_length_le hp ⟨_, hYW⟩ hlenle
      exact hni ⟨[], t, by simpa using ht⟩
    have hni' : ¬ sep <:+: (a' ++ sep.dropLast) := fun h => hni (infix_cons_drop h)
    rw [splitOnAux_append_sep hsep fuel a' b ?hlen2 hni']
    case hlen2 =>
      rw [List.length_cons] at hlen
      omega
    rfl

theorem splitOnL_joined {sep : List Char} (hsep : sep ≠ []) (hq : '"' ∉ sep) :
    ∀ (ps : List (List Char)), ps ≠ [] → (∀ p ∈ ps, ¬ sep <:+: p) →
      splitOnL sep (joinL sep (ps.map quotedL)) = ps.map quotedL
  | [], h, _ => absurd rfl h
  | [p], _, hp => by
    rw [List.map_cons, List.map_nil, joinL, splitOnL,
      splitOnAux_no_sep hsep _ _
        (not_infix_quotedL hsep hq (hp p (List.mem_singleton_self p)))]
  | p :: p₂ :: t, _, hp => by
    rw [List.map_cons, List.map_cons, joinL, splitOnL,
      splitOnAux_append_sep hsep _ _ _ le_rfl
        (not_infix_quotedL_jo hsep hq (hp p (List.mem_cons_self _ _))),
      ← List.map_cons,
      splitOnL_joined hsep hq (p₂ :: t) (by simp)
        (fun q hq2 => hp q (List.mem_cons_of_mem _ hq2)),
      List.map_cons]

theorem stripQuotes_quotedL (p : List Char) : stripQuotes (quotedL p) = p := by
  rw [stripQuotes, quotedL]
  simp [List.getLast?_concat, List.dropLast_concat]

theorem data_joinSep (sep : String) : ∀ (l : List String),
    (joinSep sep l).data = joinL sep.data (l.map String.data)
  | [] => rfl
  | [s] => rfl
  | s :: t :: ss => by
    rw [joinSep, String.data_append, String.data_append, data_joinSep sep (t :: ss)]
    rfl

theorem data_quote (p : String) : (quote p).data = quotedL p.data := rfl

theorem decode_joinSep {op : String} (hq : '"' ∉ (" " ++ op ++ " ").data) :
    ∀ (c : List String), c ≠ [] →
      (∀ p ∈ c, ¬ (" " ++ op ++ " ").data <:+: p.data) →
      decode op (joinSep (" " ++ op ++ " ") (c.map quote)) = c := by
  intro c hne hp
  have hsep : (" " ++ op ++ " ").data ≠ [] := by
    rw [String.data_append]
    intro h
    exact absurd (congrArg List.length h) (by simp)
  rw [decode, data_joinSep]
  have hmaps : (c.map quote).map String.data = (c.map String.data).map quotedL := by
    rw [List.map_map, List.map_map]
    rfl
  rw [hmaps, splitOnL_joined hsep hq (c.map String.data) (by simpa using hne)
      (by
        intro p hp2
        obtain ⟨q, hq2, rfl⟩ := List.mem_map.mp hp2
        exact hp q hq2),
    List.map_map]
  rw [List.map_map]
  conv_rhs => rw [← List.map_id c]
  apply List.map_congr_left
  intro p _
  show String.mk (stripQuotes (quotedL p.data)) = p
  rw [stripQuotes_quotedL]

/-! ## Claims C2 and C8 -/

theorem length_generate_ok {phrases : List String} {K : Int} {op : String}
    {out : List (String × List String)}
    (h : generate_phrase_combinations phrases K op = .ok out) :
    out.length = ∑ r ∈ Finset.Icc 1 (min K.toNat phrases.length),
      phrases.length.choose r := by
  obtain ⟨-, rfl⟩ := generate_ok_iff.mp h
  rw [List.length_flatMap]
  have h1 : List.map (List.length ∘ fun r => (combinations r phrases).map fun combo =>
      (joinSep (" " ++ upper op ++ " ") (combo.map quote), combo)) (rangeSizes K)
      = (rangeSizes K).map fun r => phrases.length.choose r := by
    apply List.map_congr_left
    intro r _
    simp [Function.comp_def, length_combinations]
  rw [h1, rangeSizes, List.map_map]
  rw [sum_map_range]
  have h2 : ∑ i ∈ Finset.range K.toNat,
      ((fun r => phrases.length.choose r) ∘ fun i => i + 1) i
      = ∑ r ∈ Finset.Icc 1 K.toNat, phrases.length.choose r := by
    rw [← Nat.Ico_succ_right, Finset.sum_Ico_eq_sum_range]
    simp only [Nat.succ_sub_one, Nat.add_sub_cancel]
    exact Finset.sum_congr rfl fun i _ => by
      simp [Function.comp_def, Nat.add_comm]
  rw [h2]
  symm
  apply Finset.sum_subset
  · exact Finset.Icc_subset_Icc_right (Nat.min_le_left _ _)
  · intro r hr hnr
    rw [Finset.mem_Icc] at hr
    rw [Finset.mem_Icc] at hnr
    exact Nat.choose_eq_zero_of_lt (by omega)

theorem decode_generated {phrases : List String} {op : String}
    (hq : '"' ∉ (" " ++ upper op ++ " ").data)
    (hph : ∀ ph ∈ phrases, ¬ (" " ++ upper op ++ " ").data <:+: ph.data)
    {r : Nat} (hr : 1 ≤ r) {c : List String} (hc : c ∈ combinations r phrases) :
    decode (upper op) (joinSep (" " ++ upper op ++ " ") (c.map quote)) = c := by
  obtain ⟨hsub, hlen⟩ := mem_combinations_iff.mp hc
  refine decode_joinSep hq c ?_ ?_
  · intro h
    rw [h] at hlen
    simp at hlen
    omega
  · intro p hp
    exact hph p (hsub.subset hp)

/-- **C2** (amended): for every phrase list `P`, `K ≥ 1` and accepted
operator, the generator produces exactly `Σ_{r=1}^{min(K,|P|)} C(|P|, r)`
combinations, each of size at most `K` (sizes above `|P|` contribute no
combinations rather than an error); and when all phrases are distinct *and
no phrase contains the space-surrounded uppercased operator as a
substring*, no two produced query strings are equal. -/
theorem c2_count_sizes_distinct_amended :
    ∀ (phrases : List String) (K : Int) (op : String)
      (out : List (String × List String)),
      1 ≤ K →
      generate_phrase_combinations phrases K op = .ok out →
      out.length = ∑ r ∈ Finset.Icc 1 (min K.toNat phrases.length),
          phrases.length.choose r
      ∧ (∀ p ∈ out, p.2.length ≤ K.toNat)
      ∧ (phrases.Nodup →
          (∀ ph ∈ phrases, ¬ (" " ++ upper op ++ " ").data <:+: ph.data) →
          (out.map Prod.fst).Nodup) := by
  intro phrases K op out hK hgen
  refine ⟨length_generate_ok hgen, ?_, ?_⟩
  · intro p hp
    obtain ⟨hop, rfl⟩ := generate_ok_iff.mp hgen
    obtain ⟨r, hr, hp2⟩ := List.mem_flatMap.mp hp
    obtain ⟨c, hc, rfl⟩ := List.mem_map.mp hp2
    obtain ⟨-, hlen⟩ := mem_combinations_iff.mp hc
    obtain ⟨-, h2⟩ := mem_rangeSizes_iff.mp hr
    show c.length ≤ K.toNat
    omega
  · intro hnd hph
    obtain ⟨hop, rfl⟩ := generate_ok_iff.mp hgen
    have hq : '"' ∉ (" " ++ upper op ++ " ").data := by
      rcases hop with h | h <;> rw [h] <;> decide
    rw [List.map_flatMap, List.nodup_flatMap]
    constructor
    · intro r hr
      rw [List.map_map]
      obtain ⟨h1, -⟩ := mem_rangeSizes_iff.mp hr
      refine List.Nodup.map_on ?_ (nodup_combinations hnd r)
      intro c1 hc1 c2 hc2 hg
      have d1 := decode_generated hq hph h1 hc1
      have d2 := decode_generated hq hph h1 hc2
      rw [← d1, ← d2]
      exact congrArg (decode (upper op)) hg
    · refine List.Pairwise.imp_of_mem ?_
        ((List.chain'_iff_pairwise).mp (chain'_lt_rangeSizes K))
      intro r1 r2 hm1 hm2 hlt a ha1 ha2
      simp only [List.map_map] at ha1 ha2
      obtain ⟨c1, hc1, rfl⟩ := List.mem_map.mp ha1
      obtain ⟨c2, hc2, hg⟩ := List.mem_map.mp ha2
      obtain ⟨h11, -⟩ := mem_rangeSizes_iff.mp hm1
      obtain ⟨h21, -⟩ := mem_rangeSizes_iff.mp hm2
      have d1 := decode_generated hq hph h11 hc1
      have d2 := decode_generated hq hph h21 hc2
      have hceq : c2 = c1 := by
        rw [← d1, ← d2]
        exact congrArg (decode (upper op)) hg
      obtain ⟨-, hl1⟩ := mem_combinations_iff.mp hc1
      obtain ⟨-, hl2⟩ := mem_combinations_iff.mp hc2
      rw [hceq, hl1] at hl2
      omega

/-- Counterexample to C2 as stated: with the three distinct phrases
`a" AND "b`, `a`, `b` and `K = 2`, the single-phrase query for the first
phrase and the pair query for `a`, `b` are both `"a" AND "b"`, so the
produced query strings are not pairwise distinct. -/
theorem c2_distinct_queries_counterexample :
    (["a\" AND \"b", "a", "b"] : List String).Nodup
    ∧ generate_phrase_combinations ["a\" AND \"b", "a", "b"] 2 "AND" =
        .ok [("\"a\" AND \"b\"", ["a\" AND \"b"]),
          ("\"a\"", ["a"]),
          ("\"b\"", ["b"]),
          ("\"a\" AND \"b\" AND \"a\"", ["a\" AND \"b", "a"]),
          ("\"a\" AND \"b\" AND \"b\"", ["a\" AND \"b", "b"]),
          ("\"a\" AND \"b\"", ["a", "b"])]
    ∧ ¬ (([("\"a\" AND \"b\"", ["a\" AND \"b"]),
          ("\"a\"", ["a"]),
          ("\"b\"", ["b"]),
          ("\"a\" AND \"b\" AND \"a\"", ["a\" AND \"b", "a"]),
          ("\"a\" AND \"b\" AND \"b\"", ["a\" AND \"b", "b"]),
          ("\"a\" AND \"b\"", ["a", "b"])] :
            List (String × List String)).map Prod.fst).Nodup :=
  ⟨by decide, rfl, by decide⟩

/-- Witness for C2 at `phrases = ["x","y"]`, `K = 2`, `operator = "AND"`:
three combinations, distinct query strings. -/
theorem c2_count_sizes_distinct_amended_witness :
    (([("\"x\"", ["x"]), ("\"y\"", ["y"]), ("\"x\" AND \"y\"", ["x", "y"])] :
        List (String × List String)).map Prod.fst).Nodup :=
  (c2_count_sizes_distinct_amended ["x", "y"] 2 "AND"
      [("\"x\"", ["x"]), ("\"y\"", ["y"]), ("\"x\" AND \"y\"", ["x", "y"])]
      (by decide) (by rfl)).2.2 (by decide) (by decide)

/-- **C8** (amended): for every combination produced by a successful run of
`generate_phrase_combinations`, *if no component phrase contains the
space-surrounded uppercased operator as a substring*, the component phrases
are recovered from the query string by splitting on the space-surrounded
operator and stripping the surrounding double quotes. -/
theorem c8_query_roundtrip_amended :
    ∀ (phrases : List String) (K : Int) (op : String)
      (out : List (String × List String)),
      generate_phrase_combinations phrases K op = .ok out →
      ∀ p ∈ out, (∀ ph ∈ p.2, ¬ (" " ++ upper op ++ " ").data <:+: ph.data) →
        decode (upper op) p.1 = p.2 := by
  intro phrases K op out hgen p hp hph
  obtain ⟨hop, rfl⟩ := generate_ok_iff.mp hgen
  obtain ⟨r, hr, hp2⟩ := List.mem_flatMap.mp hp
  obtain ⟨c, hc, rfl⟩ := List.mem_map.mp hp2
  have hq : '"' ∉ (" " ++ upper op ++ " ").data := by
    rcases hop with h | h <;> rw [h] <;> decide
  obtain ⟨hsub, hlen⟩ := mem_combinations_iff.mp hc
  obtain ⟨h1, -⟩ := mem_rangeSizes_iff.mp hr
  refine decode_joinSep hq c ?_ hph
  intro h
  rw [h] at hlen
  simp at hlen
  omega

/-- Counterexample to C8 as stated: the phrase `a AND b` alone generates
the query `"a AND b"`, and splitting that query on ` AND ` and stripping
quotes yields `["a", "b"]`, not the original component `["a AND b"]`. -/
theorem c8_query_roundtrip_counterexample :
    generate_phrase_combinations ["a AND b"] 1 "AND" =
        .ok [("\"a AND b\"", ["a AND b"])]
    ∧ decode (upper "AND") "\"a AND b\"" = ["a", "b"]
    ∧ (["a", "b"] : List String) ≠ ["a AND b"] :=
  ⟨rfl, by decide, by decide⟩

/-- Witness for C8 at `phrases = ["x","y"]`, `K = 2`, `operator = "and"`:
the pair query decodes back to its components. -/
theorem c8_query_roundtrip_amended_witness :
    decode (upper "and") "\"x\" AND \"y\"" = ["x", "y"] :=
  c8_query_roundtrip_amended ["x", "y"] 2 "and"
    [("\"x\"", ["x"]), ("\"y\"", ["y"]), ("\"x\" AND \"y\"", ["x", "y"])]
    (by rfl) ("\"x\" AND \"y\"", ["x", "y"]) (by decide) (by decide)

end PubmedCompare
